import Mathlib

/-!
# Verification of the sales-analytics aggregation core

Shallow embedding of `src/utils/data_processor.py`: seven pure analyzer
functions over a list of transaction records.  Python dictionaries (which
preserve insertion order) are embedded as association lists
`List (String × α)`; `dict.get(key, default)` on a record becomes an
`Option` field with a defaulting getter; the arbitrary-precision
float-and-int arithmetic of Python is embedded exactly over `ℚ` and `Int`;
the stable Python sort becomes `List.mergeSort` with the matching
comparator (stable, so ties keep pre-sort order, as in CPython);
`round(x, 2)` becomes rounding of `x * 100` to an integer, divided by 100.
-/

set_option autoImplicit false

namespace SalesAnalytics

/-- A transaction record.  Every field the core reads via
`transaction.get(key, default)` is optional; `none` models a missing key. -/
structure Transaction where
  date : Option String := none
  productName : Option String := none
  quantity : Option Int := none
  unitPrice : Option ℚ := none
  customerID : Option String := none
  region : Option String := none
deriving Repr, DecidableEq

/-- Embeds the read of the Quantity field, defaulting to 0. -/
def getQuantity (t : Transaction) : Int := t.quantity.getD 0

/-- Embeds the read of the UnitPrice field, defaulting to 0.0. -/
def getUnitPrice (t : Transaction) : ℚ := t.unitPrice.getD 0

/-- Embeds the read of the Region field, defaulting to "Unknown". -/
def getRegion (t : Transaction) : String := t.region.getD "Unknown"

/-- Embeds the read of the ProductName field, defaulting to "Unknown". -/
def getProductName (t : Transaction) : String := t.productName.getD "Unknown"

/-- Embeds the read of the CustomerID field, defaulting to "Unknown". -/
def getCustomerID (t : Transaction) : String := t.customerID.getD "Unknown"

/-- Embeds the read of the Date field, defaulting to "Unknown". -/
def getDate (t : Transaction) : String := t.date.getD "Unknown"

/-- The per-record amount, quantity times unit price. -/
def sales (t : Transaction) : ℚ := (getQuantity t : ℚ) * getUnitPrice t

/-- Embeds `calculate_total_revenue`: running-sum loop over all transactions. -/
def calculate_total_revenue (ts : List Transaction) : ℚ :=
  ts.foldl (fun acc t => acc + sales t) 0

/-- The `if key not in d: d[key] = init` + in-place update pattern shared by
every analyzer loop: update the (unique) entry for `k`, or append a fresh
entry at the end, preserving first-seen key order as CPython dicts do.
On a fresh key the update `f` is applied to `init` (the Python code first
stores the zero record, then mutates it). -/
def insertWith {α : Type} (f : α → α) (k : String) (init : α) :
    List (String × α) → List (String × α)
  | [] => [(k, f init)]
  | (k', v) :: l =>
    if k' = k then (k', f v) :: l else (k', v) :: insertWith f k init l

/-- First-match association lookup, `d[k]` / `k in d`. -/
def alookup {α : Type} (k : String) : List (String × α) → Option α
  | [] => none
  | (k', v) :: l => if k' = k then some v else alookup k l

/-- The common grouping loop shape: fold the records, bucketing each under
`keyf t` and updating with `upd t` (from `init` on a fresh key).  Each of
the five Python grouping loops is an instance of this with its own key
extractor and accumulator update. -/
def groupFold {α : Type} (keyf : Transaction → String)
    (upd : Transaction → α → α) (init : α) (ts : List Transaction) :
    List (String × α) :=
  ts.foldl (fun acc t => insertWith (upd t) (keyf t) init acc) []

/-- First-seen deduplication of a key sequence: the key order of a CPython
dict built by repeated insertion. -/
def firstSeen (l : List String) : List String :=
  l.foldl (fun acc k => if k ∈ acc then acc else acc ++ [k]) []

/-- Embeds rounding to two decimal places, as in the percentage and average passes. -/
def round2 (x : ℚ) : ℚ := (round (x * 100) : ℚ) / 100

/-! ## Region analyzer (`region_wise_sales`) -/

/-- Per-region accumulator built during the first loop. -/
structure RegionAcc where
  total_sales : ℚ
  transaction_count : Nat
deriving Repr, DecidableEq

/-- Per-region record after the percentage pass. -/
structure RegionStat where
  total_sales : ℚ
  transaction_count : Nat
  percentage : ℚ
deriving Repr, DecidableEq

/-- The per-transaction update of one region bucket. -/
def regionUpd (t : Transaction) (r : RegionAcc) : RegionAcc :=
  ⟨r.total_sales + sales t, r.transaction_count + 1⟩

/-- One iteration of the `region_wise_sales` loop: bucket update plus the
running `total_revenue` accumulator. -/
def regionStep (acc : List (String × RegionAcc) × ℚ) (t : Transaction) :
    List (String × RegionAcc) × ℚ :=
  (insertWith (regionUpd t) (getRegion t) ⟨0, 0⟩ acc.1, acc.2 + sales t)

/-- The grouping loop of `region_wise_sales`. -/
def regionFold (ts : List Transaction) : List (String × RegionAcc) × ℚ :=
  ts.foldl regionStep ([], 0)

/-- The percentage pass: `round(total_sales / total_revenue * 100, 2)` when
`total_revenue > 0`, else `0.0`. -/
def regionPct (grand : ℚ) (r : RegionAcc) : RegionStat :=
  ⟨r.total_sales, r.transaction_count,
   if 0 < grand then round2 (r.total_sales / grand * 100) else 0⟩

/-- The region buckets after the percentage pass, still in first-seen order. -/
def regionStats (ts : List Transaction) : List (String × RegionStat) :=
  (regionFold ts).1.map (fun p => (p.1, regionPct (regionFold ts).2 p.2))

/-- Comparator embedding the reverse sort on the total_sales key: a stable
sort with this `le` yields descending order with ties first-seen. -/
def regionLE (a b : String × RegionStat) : Bool :=
  decide (b.2.total_sales ≤ a.2.total_sales)

/-- Embeds `region_wise_sales`: grouping loop, percentage pass, then stable
descending sort by `total_sales`. -/
def region_wise_sales (ts : List Transaction) : List (String × RegionStat) :=
  (regionStats ts).mergeSort regionLE

/-! ## Product aggregation (`top_selling_products`, `low_performing_products`)

Both functions build the identical per-product map keyed by `ProductName`
(the same loop appears verbatim in both Python bodies), then diverge:
top sellers sort descending and slice to `n`; low performers filter below
the threshold and sort ascending. -/

/-- Per-product accumulator holding total_quantity and total_revenue. -/
structure ProductAcc where
  total_quantity : Int
  total_revenue : ℚ
deriving Repr, DecidableEq

/-- The per-transaction update of one product bucket. -/
def productUpd (t : Transaction) (p : ProductAcc) : ProductAcc :=
  ⟨p.total_quantity + getQuantity t, p.total_revenue + sales t⟩

/-- The per-product grouping loop shared by both product analyzers. -/
def productFold (ts : List Transaction) : List (String × ProductAcc) :=
  groupFold getProductName productUpd ⟨0, 0⟩ ts

/-- The flattening of the product buckets to `(name, total_quantity, total_revenue)`
tuples, in first-seen product order. -/
def productList (ts : List Transaction) : List (String × Int × ℚ) :=
  (productFold ts).map (fun p => (p.1, p.2.total_quantity, p.2.total_revenue))

/-- Comparator embedding the reverse sort on the quantity component. -/
def productGE (a b : String × Int × ℚ) : Bool := decide (b.2.1 ≤ a.2.1)

/-- Comparator embedding the ascending sort on the quantity component. -/
def productLE (a b : String × Int × ℚ) : Bool := decide (a.2.1 ≤ b.2.1)

/-- The fully sorted product ranking, before the `[:n]` slice. -/
def sortedProducts (ts : List Transaction) : List (String × Int × ℚ) :=
  (productList ts).mergeSort productGE

/-- Embeds the Python list slice up to an int index `n`: for `n ≥ 0` the first
`n` elements; for `n < 0` everything but the last `|n|` elements (empty
when `|n| ≥ len(l)`).  Never an error. -/
def pySlice {α : Type} (n : Int) (l : List α) : List α :=
  if 0 ≤ n then l.take n.toNat else l.take (l.length - (-n).toNat)

/-- Embeds `top_selling_products(transactions, n)`. -/
def top_selling_products (ts : List Transaction) (n : Int) :
    List (String × Int × ℚ) :=
  pySlice n (sortedProducts ts)

/-- Embeds `low_performing_products(transactions, threshold)`. -/
def low_performing_products (ts : List Transaction) (threshold : Int) :
    List (String × Int × ℚ) :=
  ((productList ts).filter (fun p => p.2.1 < threshold)).mergeSort productLE

/-! ## Customer analyzer (`customer_analysis`) -/

/-- Per-customer accumulator; `products_bought` embeds the Python `set`
as a duplicate-free list in insertion order (the claims under scrutiny
only concern its membership and duplicate-freeness). -/
structure CustomerAcc where
  total_spent : ℚ
  purchase_count : Nat
  products_bought : List String
deriving Repr, DecidableEq

/-- Per-customer record after the `avg_order_value` pass. -/
structure CustomerStat where
  total_spent : ℚ
  purchase_count : Nat
  products_bought : List String
  avg_order_value : ℚ
deriving Repr, DecidableEq

/-- Embeds adding to a Python set: insert only if not already present. -/
def addUnique (l : List String) (s : String) : List String :=
  if s ∈ l then l else l ++ [s]

/-- The per-transaction update of one customer accumulator. -/
def custUpd (t : Transaction) (c : CustomerAcc) : CustomerAcc :=
  ⟨c.total_spent + sales t, c.purchase_count + 1,
   addUnique c.products_bought (getProductName t)⟩

/-- The grouping loop of `customer_analysis`. -/
def custFold (ts : List Transaction) : List (String × CustomerAcc) :=
  groupFold getCustomerID custUpd ⟨0, 0, []⟩ ts

/-- The second pass: `avg_order_value = round(total_spent / purchase_count, 2)`
when `purchase_count > 0`, else `0.0`. -/
def custAvg (c : CustomerAcc) : CustomerStat :=
  ⟨c.total_spent, c.purchase_count, c.products_bought,
   if 0 < c.purchase_count then round2 (c.total_spent / c.purchase_count) else 0⟩

/-- The products of a customer bucket, viewed through the optional running
value of the bucket fold. -/
def pbOf (o : Option CustomerAcc) : List String :=
  (o.getD ⟨0, 0, []⟩).products_bought

/-- Comparator embedding the reverse sort on the total_spent key. -/
def custGE (a b : String × CustomerStat) : Bool :=
  decide (b.2.total_spent ≤ a.2.total_spent)

/-- Embeds `customer_analysis`: group, derive averages, sort by `total_spent`
descending (stable). -/
def customer_analysis (ts : List Transaction) : List (String × CustomerStat) :=
  ((custFold ts).map (fun p => (p.1, custAvg p.2))).mergeSort custGE

/-! ## Daily analyzers (`daily_sales_trend`, `find_peak_sales_day`) -/

/-- Per-date accumulator of `daily_sales_trend` (with the customer set). -/
structure DailyAcc where
  revenue : ℚ
  transaction_count : Nat
  unique_customers : List String
deriving Repr, DecidableEq

/-- Per-date record after replacing the set by its size. -/
structure DailyStat where
  revenue : ℚ
  transaction_count : Nat
  unique_customers : Nat
deriving Repr, DecidableEq

/-- The per-transaction update of one date bucket in `daily_sales_trend`. -/
def dailyUpd (t : Transaction) (d : DailyAcc) : DailyAcc :=
  ⟨d.revenue + sales t, d.transaction_count + 1,
   addUnique d.unique_customers (getCustomerID t)⟩

/-- The grouping loop of `daily_sales_trend`. -/
def dailyFold (ts : List Transaction) : List (String × DailyAcc) :=
  groupFold getDate dailyUpd ⟨0, 0, []⟩ ts

/-- Comparator embedding the ascending sort of the daily items: ascending by
date string (keys are distinct, so tuple comparison never reaches values). -/
def dateLE (a b : String × DailyStat) : Bool := !decide (b.1 < a.1)

/-- Embeds `daily_sales_trend`: group, replace customer sets by their sizes,
sort by date ascending. -/
def daily_sales_trend (ts : List Transaction) : List (String × DailyStat) :=
  ((dailyFold ts).map
    (fun p => (p.1, ⟨p.2.revenue, p.2.transaction_count,
                     p.2.unique_customers.length⟩))).mergeSort dateLE

/-- Per-date accumulator of `find_peak_sales_day` (no customer set). -/
structure DayAcc where
  revenue : ℚ
  transaction_count : Nat
deriving Repr, DecidableEq

/-- Forgetting the customer set turns a daily bucket into a peak bucket. -/
def dayOf (d : DailyAcc) : DayAcc := ⟨d.revenue, d.transaction_count⟩

/-- The per-transaction update of one date bucket in `find_peak_sales_day`. -/
def peakUpd (t : Transaction) (d : DayAcc) : DayAcc :=
  ⟨d.revenue + sales t, d.transaction_count + 1⟩

/-- The grouping loop of `find_peak_sales_day`. -/
def peakFold (ts : List Transaction) : List (String × DayAcc) :=
  groupFold getDate peakUpd ⟨0, 0⟩ ts

/-- Embeds the built-in max over buckets keyed by revenue: Python max keeps
the current best on ties, so the first maximum in iteration order wins. -/
def maxByRevenue (x : String × DayAcc) (xs : List (String × DayAcc)) :
    String × DayAcc :=
  xs.foldl (fun best y => if best.2.revenue < y.2.revenue then y else best) x

/-- Embeds `find_peak_sales_day`: the sentinel on the empty map, else the
first date attaining the maximum revenue. -/
def find_peak_sales_day (ts : List Transaction) : Option String × ℚ × Nat :=
  match peakFold ts with
  | [] => (none, 0, 0)
  | x :: xs =>
    let m := maxByRevenue x xs
    (some m.1, m.2.revenue, m.2.transaction_count)

/-! ## Sample records (concrete instantiations used by closed theorems) -/

/-- The worked scenario of the spec: North, quantity 2, price 100. -/
def sampleNorth : Transaction :=
  { region := some "North", quantity := some 2, unitPrice := some 100 }

/-- The worked scenario of the spec: South, quantity 1, price 100. -/
def sampleSouth : Transaction :=
  { region := some "South", quantity := some 1, unitPrice := some 100 }

/-- A concrete record: customer C1 buys 2 Mouse at 100 on 2024-12-01. -/
def sampleMouse : Transaction :=
  { date := some "2024-12-01", productName := some "Mouse",
    quantity := some 2, unitPrice := some 100, customerID := some "C1" }

/-- A concrete record: customer C2 buys 5 Keyboard at 10 on 2024-12-02. -/
def sampleKeyboard : Transaction :=
  { date := some "2024-12-02", productName := some "Keyboard",
    quantity := some 5, unitPrice := some 10, customerID := some "C2" }

/-! ## Generic lemmas about the embedded dict operations -/

theorem foldl_add_sales (ts : List Transaction) (a : ℚ) :
    ts.foldl (fun acc t => acc + sales t) a = a + (ts.map sales).sum := by
  induction ts generalizing a with
  | nil => simp
  | cons t ts ih => simp [ih, add_assoc]

theorem calculate_total_revenue_eq (ts : List Transaction) :
    calculate_total_revenue ts = (ts.map sales).sum := by
  simpa using foldl_add_sales ts 0

/-- Updating one bucket through `insertWith` adds `δ` to the sum of any
additive projection `g` of the values, provided the update adds `δ` and a
fresh bucket starts at zero. -/
theorem sum_map_insertWith {α M : Type} [AddCommMonoid M]
    (g : α → M) (f : α → α) (k : String) (init : α) (δ : M)
    (hf : ∀ a, g (f a) = g a + δ) (h0 : g init = 0)
    (l : List (String × α)) :
    ((insertWith f k init l).map (fun p => g p.2)).sum
      = (l.map (fun p => g p.2)).sum + δ := by
  induction l with
  | nil => simp [insertWith, hf, h0]
  | cons kv l ih =>
    obtain ⟨k', v⟩ := kv
    by_cases h : k' = k
    · simp only [insertWith, if_pos h, List.map_cons, List.sum_cons, hf]
      abel
    · simp only [insertWith, if_neg h, List.map_cons, List.sum_cons, ih]
      abel

/-- The keys of `insertWith` are the old keys, with `k` appended if new. -/
theorem keys_insertWith {α : Type} (f : α → α) (k : String) (init : α)
    (l : List (String × α)) :
    (insertWith f k init l).map Prod.fst
      = if k ∈ l.map Prod.fst then l.map Prod.fst
        else l.map Prod.fst ++ [k] := by
  induction l with
  | nil => simp [insertWith]
  | cons kv l ih =>
    obtain ⟨k', v⟩ := kv
    by_cases h : k' = k
    · simp [insertWith, h]
    · have h' : ¬ k = k' := fun e => h e.symm
      by_cases hm : k ∈ l.map Prod.fst <;>
        simp [insertWith, h, ih, hm, h']

/-- The update `insertWith` preserves key distinctness. -/
theorem nodup_keys_insertWith {α : Type} (f : α → α) (k : String) (init : α)
    (l : List (String × α)) (h : (l.map Prod.fst).Nodup) :
    ((insertWith f k init l).map Prod.fst).Nodup := by
  rw [keys_insertWith]
  by_cases hm : k ∈ l.map Prod.fst
  · simpa [hm]
  · simpa [hm, List.nodup_append] using h

/-- Lookup after `insertWith`: the bucket for `k` is updated from its old
value (or from `init` if absent); other buckets are untouched. -/
theorem alookup_insertWith {α : Type} (f : α → α) (k : String) (init : α)
    (l : List (String × α)) (k' : String) :
    alookup k' (insertWith f k init l)
      = if k' = k then some (f ((alookup k l).getD init))
        else alookup k' l := by
  induction l with
  | nil =>
    by_cases h : k' = k
    · simp [insertWith, alookup, h]
    · have h2 : ¬ k = k' := fun e => h e.symm
      simp [insertWith, alookup, h, h2]
  | cons kv l ih =>
    obtain ⟨k₀, v⟩ := kv
    by_cases h0 : k₀ = k
    · subst h0
      by_cases h1 : k' = k₀
      · subst h1
        simp [insertWith, alookup]
      · have h1' : ¬ k₀ = k' := fun e => h1 e.symm
        simp [insertWith, alookup, h1, h1']
    · by_cases h1 : k₀ = k'
      · have hk : ¬ k' = k := fun e => h0 (h1.trans e)
        simp [insertWith, alookup, h0, h1, hk]
      · simp [insertWith, alookup, h0, h1, ih]

/-- In a list with distinct keys, membership determines lookup. -/
theorem alookup_of_mem {α : Type} {l : List (String × α)} {k : String} {v : α}
    (hnd : (l.map Prod.fst).Nodup) (hm : (k, v) ∈ l) :
    alookup k l = some v := by
  induction l with
  | nil => cases hm
  | cons kv l ih =>
    obtain ⟨k₀, v₀⟩ := kv
    simp only [List.map_cons, List.nodup_cons] at hnd
    rcases List.mem_cons.1 hm with h | h
    · obtain ⟨hk, hv⟩ := Prod.mk.injEq .. ▸ h
      simp_all [alookup]
    · have hk : ¬ k₀ = k := by
        intro e
        subst e
        exact hnd.1 (List.mem_map.2 ⟨(k₀, v), h, rfl⟩)
      simp [alookup, hk, ih hnd.2 h]

/-- Conversely, a successful lookup is a membership. -/
theorem mem_of_alookup {α : Type} {l : List (String × α)} {k : String} {v : α}
    (h : alookup k l = some v) : (k, v) ∈ l := by
  induction l with
  | nil => simp [alookup] at h
  | cons kv l ih =>
    obtain ⟨k₀, v₀⟩ := kv
    by_cases hk : k₀ = k
    · subst hk
      simp [alookup] at h
      simp [h]
    · simp only [alookup, if_neg hk] at h
      exact List.mem_cons_of_mem _ (ih h)

/-- The inserted key is a key of the result. -/
theorem mem_keys_insertWith_self {α : Type} (f : α → α) (k : String)
    (init : α) (l : List (String × α)) :
    k ∈ (insertWith f k init l).map Prod.fst := by
  rw [keys_insertWith]
  by_cases hm : k ∈ l.map Prod.fst <;> simp [hm]

/-- The update `insertWith` keeps every existing key. -/
theorem mem_keys_insertWith_mono {α : Type} (f : α → α) (k : String)
    (init : α) (l : List (String × α)) {k' : String}
    (h : k' ∈ l.map Prod.fst) :
    k' ∈ (insertWith f k init l).map Prod.fst := by
  rw [keys_insertWith]
  by_cases hm : k ∈ l.map Prod.fst <;> simp [hm, h]

/-- Generic accumulator-sum law for the grouping loop: if the bucket update
adds `δ t` to an additive projection `g` and a fresh bucket starts at `g`-zero,
the fold adds the per-record deltas to the total. -/
theorem sum_map_groupFold_aux {α M : Type} [AddCommMonoid M]
    (g : α → M) (keyf : Transaction → String) (upd : Transaction → α → α)
    (init : α) (δ : Transaction → M)
    (hf : ∀ t a, g (upd t a) = g a + δ t) (h0 : g init = 0)
    (ts : List Transaction) :
    ∀ acc : List (String × α),
      ((ts.foldl (fun acc t => insertWith (upd t) (keyf t) init acc) acc).map
          (fun p => g p.2)).sum
        = (acc.map (fun p => g p.2)).sum + (ts.map δ).sum := by
  induction ts with
  | nil => intro acc; simp
  | cons t ts ih =>
    intro acc
    simp only [List.foldl_cons, List.map_cons, List.sum_cons, ih]
    rw [sum_map_insertWith g (upd t) (keyf t) init (δ t) (hf t) h0 acc]
    abel

theorem sum_map_groupFold {α M : Type} [AddCommMonoid M]
    (g : α → M) (keyf : Transaction → String) (upd : Transaction → α → α)
    (init : α) (δ : Transaction → M)
    (hf : ∀ t a, g (upd t a) = g a + δ t) (h0 : g init = 0)
    (ts : List Transaction) :
    ((groupFold keyf upd init ts).map (fun p => g p.2)).sum
      = (ts.map δ).sum := by
  simpa [groupFold] using sum_map_groupFold_aux g keyf upd init δ hf h0 ts []

/-- Along the grouping loop, keys are never removed. -/
theorem keys_fold_mono {α : Type} (keyf : Transaction → String)
    (upd : Transaction → α → α) (init : α) (ts : List Transaction) :
    ∀ (acc : List (String × α)) {k' : String},
      k' ∈ acc.map Prod.fst →
      k' ∈ ((ts.foldl (fun acc t => insertWith (upd t) (keyf t) init acc)
              acc).map Prod.fst) := by
  induction ts with
  | nil => intro acc k' h; simpa using h
  | cons t ts ih =>
    intro acc k' h
    exact ih _ (mem_keys_insertWith_mono _ _ _ _ h)

/-- Every processed record has its key among the output keys. -/
theorem mem_keys_groupFold_aux {α : Type} (keyf : Transaction → String)
    (upd : Transaction → α → α) (init : α) (ts : List Transaction) :
    ∀ (acc : List (String × α)) {t : Transaction}, t ∈ ts →
      keyf t ∈ ((ts.foldl (fun acc t => insertWith (upd t) (keyf t) init acc)
              acc).map Prod.fst) := by
  induction ts with
  | nil => intro acc t h; cases h
  | cons t' ts ih =>
    intro acc t h
    rcases List.mem_cons.1 h with h | h
    · subst h
      simp only [List.foldl_cons]
      exact keys_fold_mono keyf upd init ts _
        (mem_keys_insertWith_self _ _ _ _)
    · exact ih _ h

theorem mem_keys_groupFold {α : Type} (keyf : Transaction → String)
    (upd : Transaction → α → α) (init : α) {ts : List Transaction}
    {t : Transaction} (ht : t ∈ ts) :
    keyf t ∈ (groupFold keyf upd init ts).map Prod.fst :=
  mem_keys_groupFold_aux keyf upd init ts [] ht

theorem sum_map_one (ts : List Transaction) :
    (ts.map (fun _ => (1 : ℕ))).sum = ts.length := by
  induction ts with
  | nil => rfl
  | cons t ts ih => simp [ih, Nat.add_comm]

/-! ## Sum and count invariants of the grouping folds -/

theorem regionFold_snd (ts : List Transaction) :
    ∀ acc : List (String × RegionAcc) × ℚ,
      (ts.foldl regionStep acc).2 = acc.2 + (ts.map sales).sum := by
  induction ts with
  | nil => intro acc; simp
  | cons t ts ih =>
    intro acc
    simp only [List.foldl_cons, List.map_cons, List.sum_cons, ih]
    simp [regionStep, add_assoc]

theorem regionFold_sum_sales (ts : List Transaction) :
    ∀ acc : List (String × RegionAcc) × ℚ,
      ((ts.foldl regionStep acc).1.map (fun p => p.2.total_sales)).sum
        = (acc.1.map (fun p => p.2.total_sales)).sum + (ts.map sales).sum := by
  induction ts with
  | nil => intro acc; simp
  | cons t ts ih =>
    intro acc
    simp only [List.foldl_cons, List.map_cons, List.sum_cons, ih]
    have h := sum_map_insertWith (fun r : RegionAcc => r.total_sales)
      (regionUpd t) (getRegion t) ⟨0, 0⟩ (sales t) (fun a => rfl) rfl acc.1
    simp only [regionStep]
    rw [h]
    ring

theorem regionFold_sum_count (ts : List Transaction) :
    ∀ acc : List (String × RegionAcc) × ℚ,
      ((ts.foldl regionStep acc).1.map (fun p => p.2.transaction_count)).sum
        = (acc.1.map (fun p => p.2.transaction_count)).sum + ts.length := by
  induction ts with
  | nil => intro acc; simp
  | cons t ts ih =>
    intro acc
    simp only [List.foldl_cons, List.length_cons, ih]
    have h := sum_map_insertWith (fun r : RegionAcc => r.transaction_count)
      (regionUpd t) (getRegion t) ⟨0, 0⟩ 1 (fun a => rfl) rfl acc.1
    simp only [regionStep]
    rw [h]
    omega

/-- The sorted output is a permutation of the first-seen-order statistics. -/
theorem region_wise_sales_perm (ts : List Transaction) :
    List.Perm (region_wise_sales ts) (regionStats ts) :=
  List.mergeSort_perm _ _

theorem regionStats_sum_sales (ts : List Transaction) :
    ((regionStats ts).map (fun p => p.2.total_sales)).sum
      = calculate_total_revenue ts := by
  have h1 : ((regionStats ts).map (fun p => p.2.total_sales)).sum
      = (((regionFold ts).1).map (fun p => p.2.total_sales)).sum := by
    rw [regionStats, List.map_map]
    rfl
  rw [h1, calculate_total_revenue_eq]
  simpa [regionFold] using regionFold_sum_sales ts ([], 0)

/-- The accumulator `total_revenue` equals the sum of the bucket totals. -/
theorem regionFold_snd_eq_sum (ts : List Transaction) :
    (regionFold ts).2
      = (((regionFold ts).1).map (fun p => p.2.total_sales)).sum := by
  have h1 := regionFold_snd ts ([], 0)
  have h2 := regionFold_sum_sales ts ([], 0)
  simp only [regionFold]
  simp at h1 h2
  rw [h1, h2]

/-- C1. For every list of transaction records, the sum of `total_sales`
over the buckets returned by `region_wise_sales` equals
`calculate_total_revenue` — exactly, in the exact-arithmetic embedding. -/
theorem region_totals_sum_eq_total_revenue (ts : List Transaction) :
    ((region_wise_sales ts).map (fun p => p.2.total_sales)).sum
      = calculate_total_revenue ts := by
  rw [← regionStats_sum_sales ts]
  exact List.Perm.sum_eq (List.Perm.map _ (region_wise_sales_perm ts))

theorem regionStats_sum_eq_fold (ts : List Transaction) :
    ((regionStats ts).map (fun p => p.2.total_sales)).sum
      = (((regionFold ts).1).map (fun p => p.2.total_sales)).sum := by
  rw [regionStats, List.map_map]
  rfl

/-- The running `total_revenue` accumulator equals the grand total of the
sorted output. -/
theorem regionFold_snd_eq_output_sum (ts : List Transaction) :
    (regionFold ts).2
      = ((region_wise_sales ts).map (fun p => p.2.total_sales)).sum := by
  rw [regionFold_snd_eq_sum, ← regionStats_sum_eq_fold]
  exact (List.Perm.sum_eq (List.Perm.map _ (region_wise_sales_perm ts))).symm

/-- Every output entry comes from a fold bucket via the percentage pass. -/
theorem mem_region_wise_sales {ts : List Transaction}
    {p : String × RegionStat} (hp : p ∈ region_wise_sales ts) :
    ∃ q ∈ (regionFold ts).1, p = (q.1, regionPct (regionFold ts).2 q.2) := by
  have h : p ∈ regionStats ts :=
    (region_wise_sales_perm ts).mem_iff.1 hp
  rw [regionStats] at h
  obtain ⟨q, hq, hpq⟩ := List.mem_map.1 h
  exact ⟨q, hq, hpq.symm⟩

/-- Rounding to two decimals moves a rational by at most `1/200`. -/
theorem abs_round2_sub (x : ℚ) : |round2 x - x| ≤ 1 / 200 := by
  have h := abs_sub_round (x * 100)
  rw [round2]
  have h2 : (round (x * 100) : ℚ) / 100 - x = ((round (x * 100) : ℚ) - x * 100) / 100 := by
    ring
  rw [h2, abs_div]
  have h100 : |(100 : ℚ)| = 100 := by norm_num
  rw [h100, abs_sub_comm]
  linarith

theorem sum_map_mul_right {α : Type} (l : List α) (f : α → ℚ) (r : ℚ) :
    (l.map (fun a => f a * r)).sum = (l.map f).sum * r := by
  induction l with
  | nil => simp
  | cons a l ih => simp [ih, add_mul]

/-- Summing two pointwise-close functions over a list stays within
`length · c`. -/
theorem abs_sum_map_sub_le {α : Type} (f g : α → ℚ) (c : ℚ)
    (l : List α) (h : ∀ a ∈ l, |f a - g a| ≤ c) :
    |(l.map f).sum - (l.map g).sum| ≤ l.length * c := by
  induction l with
  | nil => simp
  | cons a l ih =>
    have ha := h a (List.mem_cons_self a l)
    have hl := ih (fun b hb => h b (List.mem_cons_of_mem a hb))
    simp only [List.map_cons, List.sum_cons, List.length_cons]
    push_cast
    have hsplit : f a + (l.map f).sum - (g a + (l.map g).sum)
        = (f a - g a) + ((l.map f).sum - (l.map g).sum) := by ring
    rw [hsplit]
    calc |(f a - g a) + ((l.map f).sum - (l.map g).sum)|
        ≤ |f a - g a| + |(l.map f).sum - (l.map g).sum| := abs_add _ _
      _ ≤ c + l.length * c := add_le_add ha hl
      _ = (l.length + 1) * c := by ring

/-- C2. The percentage of each region is `round(total_sales / grand × 100, 2)`
when the grand total is positive and exactly `0` when the grand total is
zero (no division-by-zero error); when the grand total is positive the
percentages sum to `100` within the accumulated rounding tolerance of
`1/200` per region. -/
theorem region_percentage_spec (ts : List Transaction) (G : ℚ)
    (hG : G = ((region_wise_sales ts).map (fun p => p.2.total_sales)).sum) :
    (∀ p ∈ region_wise_sales ts,
        p.2.percentage
          = if 0 < G then round2 (p.2.total_sales / G * 100) else 0)
    ∧ (0 < G →
        |((region_wise_sales ts).map (fun p => p.2.percentage)).sum - 100|
          ≤ ((region_wise_sales ts).length : ℚ) / 200) := by
  have hGfold : (regionFold ts).2 = G := by
    rw [hG, regionFold_snd_eq_output_sum]
  constructor
  · intro p hp
    obtain ⟨q, hq, rfl⟩ := mem_region_wise_sales hp
    simp [regionPct, hGfold]
  · intro hpos
    have hform : ∀ p ∈ region_wise_sales ts,
        |p.2.percentage - p.2.total_sales / G * 100| ≤ 1 / 200 := by
      intro p hp
      obtain ⟨q, hq, rfl⟩ := mem_region_wise_sales hp
      simp only [regionPct, hGfold, if_pos hpos]
      exact abs_round2_sub _
    have hbound := abs_sum_map_sub_le
      (fun p : String × RegionStat => p.2.percentage)
      (fun p : String × RegionStat => p.2.total_sales / G * 100)
      (1 / 200) (region_wise_sales ts) hform
    have hexact : ((region_wise_sales ts).map
        (fun p => p.2.total_sales / G * 100)).sum = 100 := by
      have hfun : (fun p : String × RegionStat => p.2.total_sales / G * 100)
          = fun p : String × RegionStat => p.2.total_sales * (100 / G) := by
        funext p
        field_simp
      rw [hfun, sum_map_mul_right, ← hG]
      field_simp
    rw [hexact] at hbound
    calc |((region_wise_sales ts).map (fun p => p.2.percentage)).sum - 100|
        ≤ (region_wise_sales ts).length * (1 / 200) := hbound
      _ = ((region_wise_sales ts).length : ℚ) / 200 := by ring

/-- The bucket list of the region loop is an instance of the generic
grouping loop (the extra component is only the revenue accumulator). -/
theorem regionFold_fst_eq (ts : List Transaction) :
    ∀ acc : List (String × RegionAcc) × ℚ,
      (ts.foldl regionStep acc).1
        = ts.foldl
            (fun l t => insertWith (regionUpd t) (getRegion t) ⟨0, 0⟩ l)
            acc.1 := by
  induction ts with
  | nil => intro acc; rfl
  | cons t ts ih =>
    intro acc
    simp only [List.foldl_cons]
    exact ih (regionStep acc t)

theorem mem_keys_regionFold {ts : List Transaction} {t : Transaction}
    (ht : t ∈ ts) :
    getRegion t ∈ (regionFold ts).1.map Prod.fst := by
  rw [regionFold, regionFold_fst_eq]
  exact mem_keys_groupFold_aux getRegion regionUpd ⟨0, 0⟩ ts [] ht

theorem customer_analysis_perm (ts : List Transaction) :
    List.Perm (customer_analysis ts)
      ((custFold ts).map (fun p => (p.1, custAvg p.2))) :=
  List.mergeSort_perm _ _

theorem daily_sales_trend_perm (ts : List Transaction) :
    List.Perm (daily_sales_trend ts)
      ((dailyFold ts).map
        (fun p => (p.1, ⟨p.2.revenue, p.2.transaction_count,
                         p.2.unique_customers.length⟩))) :=
  List.mergeSort_perm _ _

/-- C3. Every record is counted in exactly one bucket of each analyzer:
the transaction counts of `region_wise_sales`, the purchase counts of
`customer_analysis` and the transaction counts of `daily_sales_trend` each
sum to the number of input records, the (defaulted) grouping key of every record
appears among the output keys, and a record with a missing grouping field
is keyed by the sentinel `"Unknown"` rather than dropped. -/
theorem every_record_counted_once (ts : List Transaction) :
    ((region_wise_sales ts).map (fun p => p.2.transaction_count)).sum
      = ts.length
    ∧ ((customer_analysis ts).map (fun p => p.2.purchase_count)).sum
      = ts.length
    ∧ ((daily_sales_trend ts).map (fun p => p.2.transaction_count)).sum
      = ts.length
    ∧ (∀ t ∈ ts, getRegion t ∈ (region_wise_sales ts).map Prod.fst)
    ∧ (∀ t ∈ ts, getCustomerID t ∈ (customer_analysis ts).map Prod.fst)
    ∧ (∀ t : Transaction, t.region = none → getRegion t = "Unknown") := by
  refine ⟨?_, ?_, ?_, ?_, ?_, ?_⟩
  · rw [List.Perm.sum_eq (List.Perm.map (fun p => p.2.transaction_count)
      (region_wise_sales_perm ts))]
    have hstats : ((regionStats ts).map
        (fun p => p.2.transaction_count)).sum
        = (((regionFold ts).1).map (fun p => p.2.transaction_count)).sum := by
      rw [regionStats, List.map_map]
      rfl
    rw [hstats]
    simpa [regionFold] using regionFold_sum_count ts ([], 0)
  · rw [List.Perm.sum_eq (List.Perm.map (fun p => p.2.purchase_count)
      (customer_analysis_perm ts))]
    rw [List.map_map]
    have h := sum_map_groupFold (fun c : CustomerAcc => c.purchase_count)
      getCustomerID custUpd ⟨0, 0, []⟩ (fun _ => 1)
      (fun t a => rfl) rfl ts
    simp only [custFold]
    rw [show ((fun p : String × CustomerStat => p.2.purchase_count) ∘
        fun p : String × CustomerAcc => (p.1, custAvg p.2))
        = fun p : String × CustomerAcc => p.2.purchase_count from rfl]
    rw [h, sum_map_one]
  · rw [List.Perm.sum_eq (List.Perm.map (fun p => p.2.transaction_count)
      (daily_sales_trend_perm ts))]
    rw [List.map_map]
    have h := sum_map_groupFold (fun d : DailyAcc => d.transaction_count)
      getDate dailyUpd ⟨0, 0, []⟩ (fun _ => 1)
      (fun t a => rfl) rfl ts
    simp only [dailyFold]
    rw [show ((fun p : String × DailyStat => p.2.transaction_count) ∘
        fun p : String × DailyAcc =>
          ((p.1, ⟨p.2.revenue, p.2.transaction_count,
            p.2.unique_customers.length⟩) : String × DailyStat))
        = fun p : String × DailyAcc => p.2.transaction_count from rfl]
    rw [h, sum_map_one]
  · intro t ht
    have h1 : getRegion t ∈ (regionStats ts).map Prod.fst := by
      rw [regionStats, List.map_map]
      exact mem_keys_regionFold ht
    exact ((List.Perm.map Prod.fst (region_wise_sales_perm ts)).mem_iff).2 h1
  · intro t ht
    have h1 : getCustomerID t
        ∈ ((custFold ts).map (fun p => (p.1, custAvg p.2))).map Prod.fst := by
      rw [List.map_map]
      exact mem_keys_groupFold getCustomerID custUpd ⟨0, 0, []⟩ ht
    exact ((List.Perm.map Prod.fst (customer_analysis_perm ts)).mem_iff).2 h1
  · intro t h
    simp [getRegion, h]

/-- Grouping never duplicates a key. -/
theorem nodup_keys_groupFold_aux {α : Type} (keyf : Transaction → String)
    (upd : Transaction → α → α) (init : α) (ts : List Transaction) :
    ∀ acc : List (String × α), (acc.map Prod.fst).Nodup →
      (((ts.foldl (fun acc t => insertWith (upd t) (keyf t) init acc)
          acc)).map Prod.fst).Nodup := by
  induction ts with
  | nil => intro acc h; simpa using h
  | cons t ts ih =>
    intro acc h
    exact ih _ (nodup_keys_insertWith _ _ _ _ h)

theorem nodup_keys_groupFold {α : Type} (keyf : Transaction → String)
    (upd : Transaction → α → α) (init : α) (ts : List Transaction) :
    ((groupFold keyf upd init ts).map Prod.fst).Nodup :=
  nodup_keys_groupFold_aux keyf upd init ts [] (by simp)

/-- Closed form of the final value of a bucket: lookup after the grouping
loop is the fold of the matching records over the running bucket value. -/
theorem alookup_groupFold_aux {α : Type} (keyf : Transaction → String)
    (upd : Transaction → α → α) (init : α) (ts : List Transaction)
    (k : String) :
    ∀ acc : List (String × α),
      alookup k (ts.foldl (fun acc t => insertWith (upd t) (keyf t) init acc)
          acc)
        = (ts.filter (fun t => keyf t == k)).foldl
            (fun o t => some (upd t (o.getD init))) (alookup k acc) := by
  induction ts with
  | nil => intro acc; rfl
  | cons t ts ih =>
    intro acc
    simp only [List.foldl_cons, List.filter_cons, ih, alookup_insertWith]
    by_cases h : keyf t = k
    · simp [h]
    · have h' : ¬ k = keyf t := fun e => h e.symm
      simp [h, h']

theorem alookup_groupFold {α : Type} (keyf : Transaction → String)
    (upd : Transaction → α → α) (init : α) (ts : List Transaction)
    (k : String) :
    alookup k (groupFold keyf upd init ts)
      = (ts.filter (fun t => keyf t == k)).foldl
          (fun o t => some (upd t (o.getD init))) none := by
  simpa [groupFold] using alookup_groupFold_aux keyf upd init ts k []

theorem mem_addUnique (l : List String) (s x : String) :
    x ∈ addUnique l s ↔ x ∈ l ∨ x = s := by
  by_cases h : s ∈ l
  · simp only [addUnique, if_pos h]
    constructor
    · exact Or.inl
    · rintro (hx | rfl)
      · exact hx
      · exact h
  · simp [addUnique, if_neg h]

theorem nodup_addUnique (l : List String) (s : String) (h : l.Nodup) :
    (addUnique l s).Nodup := by
  by_cases hs : s ∈ l
  · simpa [addUnique, hs] using h
  · simp [addUnique, hs, List.nodup_append, h]

/-- Along the bucket fold of `customer_analysis`, `products_bought` stays
duplicate-free and its membership is exactly the product names seen. -/
theorem pb_fold (l : List Transaction) :
    ∀ o : Option CustomerAcc, (pbOf o).Nodup →
      (pbOf (l.foldl (fun o t => some (custUpd t (o.getD ⟨0, 0, []⟩))) o)).Nodup
      ∧ ∀ s, s ∈ pbOf (l.foldl
            (fun o t => some (custUpd t (o.getD ⟨0, 0, []⟩))) o)
          ↔ s ∈ pbOf o ∨ s ∈ l.map getProductName := by
  induction l with
  | nil => intro o h; simpa using h
  | cons t l ih =>
    intro o h
    have hstep : pbOf (some (custUpd t (o.getD ⟨0, 0, []⟩)))
        = addUnique (pbOf o) (getProductName t) := rfl
    have hnd : (pbOf (some (custUpd t (o.getD ⟨0, 0, []⟩)))).Nodup := by
      rw [hstep]
      exact nodup_addUnique _ _ h
    obtain ⟨ih1, ih2⟩ := ih (some (custUpd t (o.getD ⟨0, 0, []⟩))) hnd
    refine ⟨ih1, fun s => ?_⟩
    rw [List.foldl_cons]
    rw [ih2 s, hstep, mem_addUnique]
    simp only [List.map_cons, List.mem_cons]
    tauto

/-- C9. In `customer_analysis`, the `products_bought` list of each customer
is duplicate-free and contains exactly the product names occurring in the
transactions of that customer, however many times each was bought. -/
theorem customer_products_distinct (ts : List Transaction) :
    ∀ p ∈ customer_analysis ts,
      p.2.products_bought.Nodup
      ∧ ∀ s, s ∈ p.2.products_bought
          ↔ s ∈ (ts.filter
              (fun t => getCustomerID t == p.1)).map getProductName := by
  intro p hp
  have hp' : p ∈ (custFold ts).map (fun p => (p.1, custAvg p.2)) :=
    (customer_analysis_perm ts).mem_iff.1 hp
  obtain ⟨q, hq, rfl⟩ := List.mem_map.1 hp'
  have hnd : ((custFold ts).map Prod.fst).Nodup :=
    nodup_keys_groupFold getCustomerID custUpd ⟨0, 0, []⟩ ts
  have hlook : alookup q.1 (custFold ts) = some q.2 :=
    alookup_of_mem hnd (by simpa using hq)
  have hclosed : alookup q.1 (custFold ts)
      = (ts.filter (fun t => getCustomerID t == q.1)).foldl
          (fun o t => some (custUpd t (o.getD ⟨0, 0, []⟩))) none :=
    alookup_groupFold getCustomerID custUpd ⟨0, 0, []⟩ ts q.1
  rw [hlook] at hclosed
  have hpb : (custAvg q.2).products_bought = pbOf (some q.2) := rfl
  have hfold := pb_fold (ts.filter (fun t => getCustomerID t == q.1)) none
    (by simp [pbOf])
  rw [← hclosed] at hfold
  obtain ⟨h1, h2⟩ := hfold
  refine ⟨by rw [hpb]; exact h1, fun s => ?_⟩
  rw [hpb, h2 s]
  simp [pbOf]

/-! ## Sortedness and stability of the product rankings -/

theorem productGE_trans : ∀ a b c : String × Int × ℚ,
    productGE a b → productGE b c → productGE a c := by
  intro a b c hab hbc
  simp only [productGE, decide_eq_true_eq] at hab hbc ⊢
  exact le_trans hbc hab

theorem productGE_total : ∀ a b : String × Int × ℚ,
    productGE a b || productGE b a := by
  intro a b
  simp only [productGE, Bool.or_eq_true, decide_eq_true_eq]
  exact le_total b.2.1 a.2.1

theorem productLE_trans : ∀ a b c : String × Int × ℚ,
    productLE a b → productLE b c → productLE a c := by
  intro a b c hab hbc
  simp only [productLE, decide_eq_true_eq] at hab hbc ⊢
  exact le_trans hab hbc

theorem productLE_total : ∀ a b : String × Int × ℚ,
    productLE a b || productLE b a := by
  intro a b
  simp only [productLE, Bool.or_eq_true, decide_eq_true_eq]
  exact le_total a.2.1 b.2.1

theorem sortedProducts_perm (ts : List Transaction) :
    List.Perm (sortedProducts ts) (productList ts) :=
  List.mergeSort_perm _ _

theorem sortedProducts_pairwise (ts : List Transaction) :
    (sortedProducts ts).Pairwise (fun a b => b.2.1 ≤ a.2.1) := by
  have h := List.sorted_mergeSort productGE_trans productGE_total
    (productList ts)
  exact h.imp (fun hab => by
    simpa [productGE, decide_eq_true_eq] using hab)

/-- C4. `low_performing_products` returns exactly the aggregated
products whose `total_quantity` is strictly below the threshold — a
product exactly at the threshold is excluded — sorted ascending by
`total_quantity`, with nothing truncated (the output is a permutation of
the filtered aggregate). -/
theorem low_performers_exact (ts : List Transaction) (threshold : Int) :
    List.Perm (low_performing_products ts threshold)
      ((productList ts).filter (fun p => decide (p.2.1 < threshold)))
    ∧ (low_performing_products ts threshold).Pairwise
        (fun a b => a.2.1 ≤ b.2.1)
    ∧ (∀ p ∈ low_performing_products ts threshold, p.2.1 < threshold)
    ∧ (∀ p ∈ productList ts, p.2.1 < threshold →
        p ∈ low_performing_products ts threshold)
    ∧ (∀ p ∈ productList ts, p.2.1 = threshold →
        p ∉ low_performing_products ts threshold) := by
  have hperm : List.Perm (low_performing_products ts threshold)
      ((productList ts).filter (fun p => decide (p.2.1 < threshold))) :=
    List.mergeSort_perm _ _
  have hmem : ∀ p, p ∈ low_performing_products ts threshold
      ↔ p ∈ productList ts ∧ p.2.1 < threshold := by
    intro p
    rw [hperm.mem_iff, List.mem_filter]
    simp
  refine ⟨hperm, ?_, ?_, ?_, ?_⟩
  · have h := List.sorted_mergeSort productLE_trans productLE_total
      ((productList ts).filter (fun p => decide (p.2.1 < threshold)))
    exact h.imp (fun hab => by
      simpa [productLE, decide_eq_true_eq] using hab)
  · intro p hp
    exact ((hmem p).1 hp).2
  · intro p hp hlt
    exact (hmem p).2 ⟨hp, hlt⟩
  · intro p hp heq hout
    have := ((hmem p).1 hout).2
    omega

/-- C5. For `n ≥ 0`, `top_selling_products` returns the first `n`
entries of the descending-by-quantity stable sort of the product
aggregate: at most `n` entries, non-increasing quantities, every dropped
product has quantity at most every returned one (the true top-`n`), ties
kept in first-seen order, and the whole aggregate when it has at most `n`
products — never an error. -/
theorem top_selling_spec (ts : List Transaction) (n : Int) (hn : 0 ≤ n) :
    (top_selling_products ts n).length ≤ n.toNat
    ∧ (top_selling_products ts n).Pairwise (fun a b => b.2.1 ≤ a.2.1)
    ∧ top_selling_products ts n = (sortedProducts ts).take n.toNat
    ∧ List.Perm (sortedProducts ts) (productList ts)
    ∧ (∀ p ∈ (sortedProducts ts).drop n.toNat,
        ∀ q ∈ top_selling_products ts n, p.2.1 ≤ q.2.1)
    ∧ ((productList ts).length ≤ n.toNat →
        List.Perm (top_selling_products ts n) (productList ts))
    ∧ (∀ a b : String × Int × ℚ, a.2.1 = b.2.1 →
        List.Sublist [a, b] (productList ts) →
        List.Sublist [a, b] (sortedProducts ts)) := by
  have htake : top_selling_products ts n = (sortedProducts ts).take n.toNat := by
    rw [top_selling_products, pySlice, if_pos hn]
  have hpw := sortedProducts_pairwise ts
  refine ⟨?_, ?_, htake, sortedProducts_perm ts, ?_, ?_, ?_⟩
  · rw [htake, List.length_take]
    exact min_le_left _ _
  · rw [htake]
    exact hpw.sublist (List.take_sublist _ _)
  · intro p hp q hq
    rw [htake] at hq
    have hsplit := List.take_append_drop n.toNat (sortedProducts ts)
    have hpw' : ((sortedProducts ts).take n.toNat
        ++ (sortedProducts ts).drop n.toNat).Pairwise
        (fun a b => b.2.1 ≤ a.2.1) := by
      rw [hsplit]
      exact hpw
    exact (List.pairwise_append.1 hpw').2.2 q hq p hp
  · intro hlen
    rw [htake]
    have hlen' : (sortedProducts ts).length ≤ n.toNat := by
      rw [(sortedProducts_perm ts).length_eq]
      exact hlen
    rw [List.take_of_length_le hlen']
    exact sortedProducts_perm ts
  · intro a b heq hsub
    apply List.pair_sublist_mergeSort productGE_trans productGE_total _ hsub
    simp [productGE, heq]

/-- C10. For negative `n`, `top_selling_products` is the Python slice
`sorted_products[:n]`: the descending-sorted product list with its last
`min(|n|, length)` entries removed — in particular never an error, and an
empty list only when `|n|` reaches the product count. -/
theorem top_selling_negative_slice (ts : List Transaction) (n : Int)
    (hn : n < 0) :
    top_selling_products ts n
        ++ (sortedProducts ts).drop
            ((sortedProducts ts).length
              - min n.natAbs (sortedProducts ts).length)
      = sortedProducts ts
    ∧ ((sortedProducts ts).drop
          ((sortedProducts ts).length
            - min n.natAbs (sortedProducts ts).length)).length
        = min n.natAbs (sortedProducts ts).length := by
  have hneg : ¬ 0 ≤ n := not_le.2 hn
  have habs : (-n).toNat = n.natAbs := by omega
  have hs : top_selling_products ts n
      = (sortedProducts ts).take
          ((sortedProducts ts).length
            - min n.natAbs (sortedProducts ts).length) := by
    rw [top_selling_products, pySlice, if_neg hneg, habs]
    congr 1
    omega
  constructor
  · rw [hs]
    exact List.take_append_drop _ _
  · rw [List.length_drop]
    omega

/-- The key order of any grouping loop is the first-seen order of the
record keys. -/
theorem keys_fold_firstSeen_aux {α : Type} (keyf : Transaction → String)
    (upd : Transaction → α → α) (init : α) (ts : List Transaction) :
    ∀ acc : List (String × α),
      ((ts.foldl (fun acc t => insertWith (upd t) (keyf t) init acc)
          acc).map Prod.fst)
        = (ts.map keyf).foldl
            (fun ks k => if k ∈ ks then ks else ks ++ [k])
            (acc.map Prod.fst) := by
  induction ts with
  | nil => intro acc; rfl
  | cons t ts ih =>
    intro acc
    simp only [List.foldl_cons, List.map_cons]
    rw [ih]
    congr 1
    exact keys_insertWith _ _ _ _

theorem keys_groupFold_firstSeen {α : Type} (keyf : Transaction → String)
    (upd : Transaction → α → α) (init : α) (ts : List Transaction) :
    (groupFold keyf upd init ts).map Prod.fst = firstSeen (ts.map keyf) := by
  simpa [groupFold, firstSeen]
    using keys_fold_firstSeen_aux keyf upd init ts []

theorem keys_regionStats_firstSeen (ts : List Transaction) :
    (regionStats ts).map Prod.fst = firstSeen (ts.map getRegion) := by
  have h : ((regionFold ts).1).map Prod.fst = firstSeen (ts.map getRegion) := by
    rw [regionFold, regionFold_fst_eq]
    simpa [firstSeen]
      using keys_fold_firstSeen_aux getRegion regionUpd ⟨0, 0⟩ ts []
  rw [regionStats, List.map_map]
  exact h

theorem regionLE_trans : ∀ a b c : String × RegionStat,
    regionLE a b → regionLE b c → regionLE a c := by
  intro a b c hab hbc
  simp only [regionLE, decide_eq_true_eq] at hab hbc ⊢
  exact le_trans hbc hab

theorem regionLE_total : ∀ a b : String × RegionStat,
    regionLE a b || regionLE b a := by
  intro a b
  simp only [regionLE, Bool.or_eq_true, decide_eq_true_eq]
  exact le_total b.2.total_sales a.2.total_sales

/-- C6. `region_wise_sales` is ordered descending by `total_sales`;
the pre-sort bucket list is in first-seen region order, and two buckets
with equal `total_sales` keep that first-seen relative order in the output
(stability of the sort). -/
theorem region_ordering (ts : List Transaction) :
    (region_wise_sales ts).Pairwise
      (fun a b => b.2.total_sales ≤ a.2.total_sales)
    ∧ (regionStats ts).map Prod.fst = firstSeen (ts.map getRegion)
    ∧ (∀ a b : String × RegionStat, a.2.total_sales = b.2.total_sales →
        List.Sublist [a, b] (regionStats ts) →
        List.Sublist [a, b] (region_wise_sales ts)) := by
  refine ⟨?_, keys_regionStats_firstSeen ts, ?_⟩
  · have h := List.sorted_mergeSort regionLE_trans regionLE_total
      (regionStats ts)
    exact h.imp (fun hab => by
      simpa [regionLE, decide_eq_true_eq] using hab)
  · intro a b heq hsub
    apply List.pair_sublist_mergeSort regionLE_trans regionLE_total _ hsub
    simp [regionLE, heq]

/-! ## Peak-day lemmas -/

theorem insertWith_dayOf (t : Transaction) (k : String)
    (l : List (String × DailyAcc)) :
    insertWith (peakUpd t) k ⟨0, 0⟩ (l.map (fun p => (p.1, dayOf p.2)))
      = (insertWith (dailyUpd t) k ⟨0, 0, []⟩ l).map
          (fun p => (p.1, dayOf p.2)) := by
  induction l with
  | nil => rfl
  | cons kv l ih =>
    obtain ⟨k', v⟩ := kv
    by_cases h : k' = k
    · simp [insertWith, h, peakUpd, dailyUpd, dayOf]
    · simp [insertWith, h, ih]

/-- The fold of `find_peak_sales_day` builds exactly the revenue/count part of the
`daily_sales_trend` grouping. -/
theorem peakFold_eq_dailyFold_map (ts : List Transaction) :
    peakFold ts = (dailyFold ts).map (fun p => (p.1, dayOf p.2)) := by
  have aux : ∀ acc : List (String × DailyAcc),
      ts.foldl (fun acc t => insertWith (peakUpd t) (getDate t) ⟨0, 0⟩ acc)
          (acc.map (fun p => (p.1, dayOf p.2)))
        = (ts.foldl
            (fun acc t => insertWith (dailyUpd t) (getDate t) ⟨0, 0, []⟩ acc)
            acc).map (fun p => (p.1, dayOf p.2)) := by
    induction ts with
    | nil => intro acc; rfl
    | cons t ts ih =>
      intro acc
      simp only [List.foldl_cons]
      rw [insertWith_dayOf]
      exact ih _
  simpa [peakFold, dailyFold, groupFold] using aux []

/-- Specification of the embedded keyed max: the result bounds every element, and
everything strictly before it in iteration order is strictly smaller
(ties keep the earlier element). -/
theorem maxByRevenue_spec (xs : List (String × DayAcc)) :
    ∀ x : String × DayAcc,
      (∀ p ∈ x :: xs, p.2.revenue ≤ (maxByRevenue x xs).2.revenue)
      ∧ ∃ l₁ l₂, x :: xs = l₁ ++ (maxByRevenue x xs) :: l₂
          ∧ ∀ p ∈ l₁, p.2.revenue < (maxByRevenue x xs).2.revenue := by
  induction xs with
  | nil =>
    intro x
    refine ⟨?_, [], [], rfl, by simp⟩
    intro p hp
    simp only [maxByRevenue, List.foldl_nil]
    rcases List.mem_cons.1 hp with h | h
    · rw [h]
    · cases h
  | cons y ys ih =>
    intro x
    have hstep : maxByRevenue x (y :: ys)
        = maxByRevenue (if x.2.revenue < y.2.revenue then y else x) ys := rfl
    by_cases h : x.2.revenue < y.2.revenue
    · rw [hstep, if_pos h]
      obtain ⟨hmax, l₁, l₂, hsplit, hlt⟩ := ih y
      have hym : y.2.revenue ≤ (maxByRevenue y ys).2.revenue :=
        hmax y (List.mem_cons_self y ys)
      refine ⟨?_, x :: l₁, l₂, ?_, ?_⟩
      · intro p hp
        rcases List.mem_cons.1 hp with hx | hp'
        · rw [hx]
          exact le_trans (le_of_lt h) hym
        · exact hmax p hp'
      · rw [List.cons_append, ← hsplit]
      · intro p hp
        rcases List.mem_cons.1 hp with hx | hp'
        · rw [hx]
          exact lt_of_lt_of_le h hym
        · exact hlt p hp'
    · rw [hstep, if_neg h]
      obtain ⟨hmax, l₁, l₂, hsplit, hlt⟩ := ih x
      have hyx : y.2.revenue ≤ x.2.revenue := le_of_not_lt h
      have hxm : x.2.revenue ≤ (maxByRevenue x ys).2.revenue :=
        hmax x (List.mem_cons_self x ys)
      have hmax' : ∀ p ∈ x :: y :: ys,
          p.2.revenue ≤ (maxByRevenue x ys).2.revenue := by
        intro p hp
        rcases List.mem_cons.1 hp with hx | hp'
        · rw [hx]; exact hxm
        · rcases List.mem_cons.1 hp' with hy | hp''
          · rw [hy]; exact le_trans hyx hxm
          · exact hmax p (List.mem_cons_of_mem x hp'')
      cases l₁ with
      | nil =>
        have hx : maxByRevenue x ys = x :=
          (by simpa using congrArg (fun l => l.headD x) hsplit : _ = _).symm
        refine ⟨hmax', [], y :: ys, ?_, by simp⟩
        rw [hx]
        simp
      | cons a l₁' =>
        have ha : a = x :=
          (by simpa using congrArg (fun l => l.headD x) hsplit : _ = _).symm
        have hys : ys = l₁' ++ (maxByRevenue x ys) :: l₂ := by
          have := congrArg List.tail hsplit
          simpa using this
        have hax : x.2.revenue < (maxByRevenue x ys).2.revenue := by
          have := hlt a (List.mem_cons_self a l₁')
          rwa [ha] at this
        refine ⟨hmax', x :: y :: l₁', l₂, ?_, ?_⟩
        · simp only [List.cons_append]
          rw [← hys]
        · intro p hp
          rcases List.mem_cons.1 hp with hx | hp'
          · rw [hx]; exact hax
          · rcases List.mem_cons.1 hp' with hy | hp''
            · rw [hy]; exact lt_of_le_of_lt hyx hax
            · exact hlt p (List.mem_cons_of_mem a hp'')

/-- C7. On non-empty input, `find_peak_sales_day` returns a date,
revenue and count such that: `daily_sales_trend` assigns the same revenue
and count to that date; the revenue is the maximum daily revenue; the
bucket list is in first-seen date order and every bucket strictly before
the returned one has strictly smaller revenue (so on a tie the first-seen
date wins). -/
theorem find_peak_spec (ts : List Transaction) (hne : ts ≠ []) :
    ∃ d r c, find_peak_sales_day ts = (some d, r, c)
    ∧ (∃ st, (d, st) ∈ daily_sales_trend ts
        ∧ st.revenue = r ∧ st.transaction_count = c)
    ∧ (∀ p ∈ daily_sales_trend ts, p.2.revenue ≤ r)
    ∧ (∃ l₁ l₂, peakFold ts = l₁ ++ (d, ⟨r, c⟩) :: l₂
        ∧ ∀ p ∈ l₁, p.2.revenue < r)
    ∧ (peakFold ts).map Prod.fst = firstSeen (ts.map getDate) := by
  obtain ⟨t0, ts', rfl⟩ := List.exists_cons_of_ne_nil hne
  have hkey : getDate t0 ∈ (peakFold (t0 :: ts')).map Prod.fst :=
    mem_keys_groupFold getDate peakUpd ⟨0, 0⟩ (List.mem_cons_self t0 ts')
  obtain ⟨x, xs, hfold⟩ : ∃ x xs, peakFold (t0 :: ts') = x :: xs := by
    cases hpf : peakFold (t0 :: ts') with
    | nil => rw [hpf] at hkey; cases hkey
    | cons x xs => exact ⟨x, xs, rfl⟩
  set m := maxByRevenue x xs with hm
  obtain ⟨hmax, l₁, l₂, hsplit, hlt⟩ := maxByRevenue_spec xs x
  have hpeak : find_peak_sales_day (t0 :: ts')
      = (some m.1, m.2.revenue, m.2.transaction_count) := by
    rw [find_peak_sales_day, hfold]
  refine ⟨m.1, m.2.revenue, m.2.transaction_count, hpeak, ?_, ?_, ?_, ?_⟩
  · have hmem : m ∈ peakFold (t0 :: ts') := by
      rw [hfold, hsplit]
      exact List.mem_append_right _ (List.mem_cons_self _ _)
    rw [peakFold_eq_dailyFold_map] at hmem
    obtain ⟨q, hq, hqm⟩ := List.mem_map.1 hmem
    refine ⟨⟨q.2.revenue, q.2.transaction_count,
      q.2.unique_customers.length⟩, ?_, ?_, ?_⟩
    · apply (daily_sales_trend_perm (t0 :: ts')).mem_iff.2
      have h1 : q.1 = m.1 := congrArg Prod.fst hqm
      rw [← h1]
      exact List.mem_map.2 ⟨q, hq, rfl⟩
    · exact congrArg (fun p => p.2.revenue) hqm
    · exact congrArg (fun p => p.2.transaction_count) hqm
  · intro p hp
    have hp' := (daily_sales_trend_perm (t0 :: ts')).mem_iff.1 hp
    obtain ⟨q, hq, hqp⟩ := List.mem_map.1 hp'
    have hq' : (q.1, dayOf q.2) ∈ peakFold (t0 :: ts') := by
      rw [peakFold_eq_dailyFold_map]
      exact List.mem_map.2 ⟨q, hq, rfl⟩
    have := hmax (q.1, dayOf q.2) (by rwa [hfold] at hq')
    rw [← hqp]
    exact this
  · refine ⟨l₁, l₂, ?_, hlt⟩
    rw [hfold, hsplit]
  · exact keys_groupFold_firstSeen getDate peakUpd ⟨0, 0⟩ (t0 :: ts')

/-- C8. Every analyzer maps the empty record list to its defined
empty/zero result: `0` total revenue, empty maps and lists, and the
`(None, 0.0, 0)` sentinel for the peak day — never an error. -/
theorem analyzers_on_empty_input (n t : Int) :
    calculate_total_revenue [] = 0
    ∧ region_wise_sales [] = []
    ∧ customer_analysis [] = []
    ∧ daily_sales_trend [] = []
    ∧ top_selling_products [] n = []
    ∧ low_performing_products [] t = []
    ∧ find_peak_sales_day [] = (none, 0, 0) := by
  refine ⟨rfl, ?_, ?_, ?_, ?_, ?_, rfl⟩
  · simp [region_wise_sales, regionStats, regionFold]
  · simp [customer_analysis, custFold, groupFold]
  · simp [daily_sales_trend, dailyFold, groupFold]
  · simp [top_selling_products, pySlice, sortedProducts, productList,
      productFold, groupFold]
  · simp [low_performing_products, productList, productFold, groupFold]

/-! ## Concrete instantiations of the conditional theorems -/

/-- The percentage specification instantiated on the worked North/South
scenario of the spec, whose grand total is `300`. -/
theorem region_percentage_spec_witness :
    ((300 : ℚ)
        = ((region_wise_sales [sampleNorth, sampleSouth]).map
            (fun p => p.2.total_sales)).sum)
    ∧ ((∀ p ∈ region_wise_sales [sampleNorth, sampleSouth],
          p.2.percentage
            = if 0 < (300 : ℚ)
              then round2 (p.2.total_sales / 300 * 100) else 0)
      ∧ (0 < (300 : ℚ) →
          |((region_wise_sales [sampleNorth, sampleSouth]).map
              (fun p => p.2.percentage)).sum - 100|
            ≤ ((region_wise_sales [sampleNorth, sampleSouth]).length : ℚ)
                / 200)) := by
  have hG : (300 : ℚ)
      = ((region_wise_sales [sampleNorth, sampleSouth]).map
          (fun p => p.2.total_sales)).sum := by
    simp [region_wise_sales, regionStats, regionFold, regionStep, regionUpd,
      insertWith, getRegion, sales, getQuantity, getUnitPrice,
      List.mergeSort, List.splitInTwo, regionPct, regionLE,
      sampleNorth, sampleSouth]
    norm_num
  exact ⟨hG, region_percentage_spec [sampleNorth, sampleSouth] 300 hG⟩

/-- The top-seller specification instantiated at `n = 1` on two concrete
records with distinct products. -/
theorem top_selling_spec_witness :
    (0 : Int) ≤ 1
    ∧ ((top_selling_products [sampleMouse, sampleKeyboard] 1).length
          ≤ (1 : Int).toNat
      ∧ (top_selling_products [sampleMouse, sampleKeyboard] 1).Pairwise
          (fun a b => b.2.1 ≤ a.2.1)
      ∧ top_selling_products [sampleMouse, sampleKeyboard] 1
          = (sortedProducts [sampleMouse, sampleKeyboard]).take (1 : Int).toNat
      ∧ List.Perm (sortedProducts [sampleMouse, sampleKeyboard])
          (productList [sampleMouse, sampleKeyboard])
      ∧ (∀ p ∈ (sortedProducts [sampleMouse, sampleKeyboard]).drop
            (1 : Int).toNat,
          ∀ q ∈ top_selling_products [sampleMouse, sampleKeyboard] 1,
            p.2.1 ≤ q.2.1)
      ∧ ((productList [sampleMouse, sampleKeyboard]).length ≤ (1 : Int).toNat →
          List.Perm (top_selling_products [sampleMouse, sampleKeyboard] 1)
            (productList [sampleMouse, sampleKeyboard]))
      ∧ (∀ a b : String × Int × ℚ, a.2.1 = b.2.1 →
          List.Sublist [a, b] (productList [sampleMouse, sampleKeyboard]) →
          List.Sublist [a, b] (sortedProducts [sampleMouse, sampleKeyboard]))) :=
  ⟨by decide, top_selling_spec [sampleMouse, sampleKeyboard] 1 (by decide)⟩

/-- The negative-slice specification instantiated at `n = -1`. -/
theorem top_selling_negative_slice_witness :
    (-1 : Int) < 0
    ∧ (top_selling_products [sampleMouse, sampleKeyboard] (-1)
          ++ (sortedProducts [sampleMouse, sampleKeyboard]).drop
              ((sortedProducts [sampleMouse, sampleKeyboard]).length
                - min (-1 : Int).natAbs
                    (sortedProducts [sampleMouse, sampleKeyboard]).length)
        = sortedProducts [sampleMouse, sampleKeyboard]
      ∧ ((sortedProducts [sampleMouse, sampleKeyboard]).drop
            ((sortedProducts [sampleMouse, sampleKeyboard]).length
              - min (-1 : Int).natAbs
                  (sortedProducts [sampleMouse, sampleKeyboard]).length)).length
          = min (-1 : Int).natAbs
              (sortedProducts [sampleMouse, sampleKeyboard]).length) :=
  ⟨by decide,
   top_selling_negative_slice [sampleMouse, sampleKeyboard] (-1) (by decide)⟩

/-- The peak-day specification instantiated on two concrete records with
distinct dates. -/
theorem find_peak_spec_witness :
    ([sampleMouse, sampleKeyboard] : List Transaction) ≠ []
    ∧ ∃ d r c, find_peak_sales_day [sampleMouse, sampleKeyboard]
        = (some d, r, c)
      ∧ (∃ st, (d, st) ∈ daily_sales_trend [sampleMouse, sampleKeyboard]
          ∧ st.revenue = r ∧ st.transaction_count = c)
      ∧ (∀ p ∈ daily_sales_trend [sampleMouse, sampleKeyboard],
          p.2.revenue ≤ r)
      ∧ (∃ l₁ l₂, peakFold [sampleMouse, sampleKeyboard]
            = l₁ ++ (d, ⟨r, c⟩) :: l₂
          ∧ ∀ p ∈ l₁, p.2.revenue < r)
      ∧ (peakFold [sampleMouse, sampleKeyboard]).map Prod.fst
          = firstSeen ([sampleMouse, sampleKeyboard].map getDate) :=
  ⟨by simp, find_peak_spec [sampleMouse, sampleKeyboard] (by simp)⟩

/-- The distinct-products specification instantiated on the bucket the
single record `sampleMouse` produces for customer `C1`. -/
theorem customer_products_distinct_witness :
    (("C1", (⟨200, 1, ["Mouse"], 200⟩ : CustomerStat))
        ∈ customer_analysis [sampleMouse])
    ∧ ((⟨200, 1, ["Mouse"], 200⟩ : CustomerStat).products_bought.Nodup
      ∧ ∀ s, s ∈ (⟨200, 1, ["Mouse"], 200⟩ : CustomerStat).products_bought
          ↔ s ∈ ([sampleMouse].filter
              (fun t => getCustomerID t == "C1")).map getProductName) := by
  have hmem : (("C1", (⟨200, 1, ["Mouse"], 200⟩ : CustomerStat))
      ∈ customer_analysis [sampleMouse]) := by
    simp [customer_analysis, custFold, groupFold, insertWith, custUpd,
      custAvg, addUnique, getCustomerID, getProductName, sales, getQuantity,
      getUnitPrice, round2, sampleMouse]
    norm_num
  exact ⟨hmem, customer_products_distinct [sampleMouse] _ hmem⟩

end SalesAnalytics
